import Mathlib

/-!
Shallow embedding of `mongodb-queue.js` (theclinician/mongodb-queue).

A queue is a MongoDB collection of message documents.  We model a document
as a `Doc` record and a collection as a `List (Doc α)` (list order is the
store's natural order; `_id` is the primary key).  Timestamps (ISO strings
produced by `now()` / `nowPlusSecs`) are modelled as natural numbers in
seconds: `nowPlusSecs(secs)` at instant `t` is `t + secs`, and string
comparison of ISO-8601 timestamps agrees with numeric comparison.

Fields that a document may lack (`ack`, `deleted`) are `Option`s with
`none` for "absent"; the MongoDB query `field : null` matches both an
absent field and an explicit null, which both collapse to `none` here
(no code path ever stores an explicit null), and `field : { $exists : true }`
is `Option.isSome`.  The `tries` field is absent on freshly inserted
documents and is only touched by `$inc`, which treats an absent field as 0,
so it is modelled as a `Nat` that is 0 on insertion.

Randomly generated hex strings (`id()`, used for ack tokens) and
store-generated `_id`s are modelled by counters threaded through the state;
freshness of generated tokens is an explicit hypothesis where needed.
-/

set_option maxHeartbeats 1000000

namespace MongoQueue

/-- `nowPlusSecs(secs)` evaluated at instant `t`. -/
def nowPlusSecs (t : Nat) (secs : Nat) : Nat := t + secs

/-- JavaScript `x || d` for an optional numeric option: both `undefined`
(`none`) and `0` are falsy and fall back to the default `d`. -/
def jsOr (o : Option Nat) (d : Nat) : Nat :=
  match o with
  | none => d
  | some v => if v = 0 then d else v

/-- One message document of the collection.  Mirrors the fields the source
stores: `_id`, `visible`, `payload`, and the fields added later by updates:
`ack`, `tries`, `deleted`. -/
structure Doc (α : Type) where
  _id : Nat
  visible : Nat
  payload : α
  ack : Option Nat := none
  tries : Nat := 0
  deleted : Option Nat := none
  deriving DecidableEq, Repr

/-- A freshly inserted document, as built by `add` / `addIfMissing`:
`visible = delay ? nowPlusSecs(delay) : now()`, no ack, no tries, not
deleted. -/
def newDoc (delay : Nat) (t : Nat) (i : Nat) (p : α) : Doc α :=
  { _id := i, visible := if delay ≠ 0 then nowPlusSecs t delay else t, payload := p }

/-- Dead-letter configuration: the target queue (of which `add` only uses
its configured `delay`) together with the source queue's `maxRetries`
(`opts.maxRetries || 5`). -/
structure DeadLetter where
  delay : Nat
  maxRetries : Nat
  deriving DecidableEq, Repr

/-- Queue configuration: `this.visibility = opts.visibility || 30`,
`this.delay = opts.delay || 0`, and the optional dead-letter target. -/
structure Queue where
  visibility : Nat := 30
  delay : Nat := 0
  dead : Option DeadLetter := none
  deriving DecidableEq, Repr

/-- The `Queue` constructor's option handling. -/
def mkQueue (optsVisibility optsDelay : Option Nat) (dead : Option DeadLetter) : Queue :=
  { visibility := jsOr optsVisibility 30, delay := jsOr optsDelay 0, dead := dead }

/-- The external representation `get` hands to its caller:
`{ id, ack, payload, tries }` and nothing else. -/
structure View (α : Type) where
  id : Nat
  ack : Nat
  payload : α
  tries : Nat
  deriving DecidableEq, Repr

/-- `findOneAndUpdate` without a sort clause: update the first document of
the collection matching `p` (MongoDB natural order), returning the updated
document (`returnOriginal : false`); no document is touched when none
matches. -/
def findOneAndUpdate (p : Doc α → Bool) (f : Doc α → Doc α) :
    List (Doc α) → Option (Doc α) × List (Doc α)
  | [] => (none, [])
  | d :: ds =>
    if p d then (some (f d), f d :: ds)
    else
      let r := findOneAndUpdate p f ds
      (r.1, d :: r.2)

/-- A matching document of minimal `_id` (the `sort : { _id : 1 }` clause
of `get`); on ties the earliest occurrence is kept. -/
def findMin (p : Doc α → Bool) : List (Doc α) → Option (Doc α)
  | [] => none
  | d :: ds =>
    match findMin p ds with
    | none => if p d then some d else none
    | some m => if p d then (if d._id ≤ m._id then some d else some m) else some m

/-- Replace the first occurrence of document `a` by `b`. -/
def replaceFirst [DecidableEq α] (a b : Doc α) : List (Doc α) → List (Doc α)
  | [] => []
  | d :: ds => if d = a then b :: ds else d :: replaceFirst a b ds

/-- `get`'s selection query: `deleted : null, visible : { $lte : now() }`. -/
def getMatch (t : Nat) (d : Doc α) : Bool :=
  (d.deleted == none) && decide (d.visible ≤ t)

/-- `get`'s update: `$inc tries by 1`, `$set ack and visible`. -/
def claimUpdate (tok : Nat) (newVis : Nat) (d : Doc α) : Doc α :=
  { d with tries := d.tries + 1, ack := some tok, visible := newVis }

/-- The atomic `findOneAndUpdate` of `get`: pick one matching document of
minimal `_id`, apply the claim update to it alone, return the updated
document. -/
def claimOne [DecidableEq α] (visibility : Nat) (t : Nat) (tok : Nat)
    (docs : List (Doc α)) : Option (Doc α) × List (Doc α) :=
  match findMin (getMatch t) docs with
  | none => (none, docs)
  | some m =>
    (some (claimUpdate tok (nowPlusSecs t visibility) m),
     replaceFirst m (claimUpdate tok (nowPlusSecs t visibility) m) docs)

/-- `ping`/`ack` selection query:
`ack : ack, visible : { $gt : now() }, deleted : null`. -/
def ackQuery (tok : Nat) (t : Nat) (d : Doc α) : Bool :=
  (d.ack == some tok) && decide (t < d.visible) && (d.deleted == none)

/-- `Queue.prototype.ping`: extend the lease of the message holding this
ack token; `visibility = opts.visibility || self.visibility`. -/
def Queue.ping (q : Queue) (tok : Nat) (optsVis : Option Nat) (t : Nat)
    (docs : List (Doc α)) : Except String Nat × List (Doc α) :=
  let visibility := jsOr optsVis q.visibility
  match findOneAndUpdate (ackQuery tok t)
      (fun d => { d with visible := nowPlusSecs t visibility }) docs with
  | (none, ds) => (.error ("Queue.ping(): Unidentified ack  : " ++ toString tok), ds)
  | (some m, ds) => (.ok m._id, ds)

/-- `Queue.prototype.ack`: finalize the message holding this ack token by
setting `deleted : now()`. -/
def Queue.ack (tok : Nat) (t : Nat) (docs : List (Doc α)) :
    Except String Nat × List (Doc α) :=
  match findOneAndUpdate (ackQuery tok t) (fun d => { d with deleted := some t }) docs with
  | (none, ds) => (.error ("Queue.ack(): Unidentified ack : " ++ toString tok), ds)
  | (some m, ds) => (.ok m._id, ds)

/-- `Queue.prototype.cancel` selection query:
`_id : id, deleted : null, visible : { $lte : now() }`. -/
def cancelQuery (i : Nat) (t : Nat) (d : Doc α) : Bool :=
  (d._id == i) && (d.deleted == none) && decide (d.visible ≤ t)

/-- `Queue.prototype.cancel`: finalize a pending, already-visible message
by identifier. -/
def Queue.cancel (i : Nat) (t : Nat) (docs : List (Doc α)) :
    Except String Unit × List (Doc α) :=
  match findOneAndUpdate (cancelQuery i t) (fun d => { d with deleted := some t }) docs with
  | (none, ds) => (.error ("Queue.cancel(): Unidentified id : " ++ toString i), ds)
  | (some _, ds) => (.ok (), ds)

/-- `Queue.prototype.add`, single-payload branch: insert one new document
with `visible = delay ? nowPlusSecs(delay) : now()`, `delay =
opts.delay || self.delay`; `newId` is the store-generated `_id`. -/
def Queue.add (q : Queue) (p : α) (optsDelay : Option Nat) (t : Nat) (newId : Nat)
    (docs : List (Doc α)) : List (Doc α) :=
  docs ++ [newDoc (jsOr optsDelay q.delay) t newId p]

/-- `Queue.prototype.add`, array branch: an empty array is a usage error,
otherwise each payload becomes one document, all sharing the same computed
`visible`; `_id`s are store-generated. -/
def Queue.addBatch (q : Queue) (ps : List α) (optsDelay : Option Nat) (t : Nat)
    (baseId : Nat) (docs : List (Doc α)) : Except String (List (Doc α)) :=
  if ps.length = 0 then
    .error "Queue.add(): Array payload length must be greater than 0"
  else
    .ok (docs ++ ps.enum.map (fun ip => newDoc (jsOr optsDelay q.delay) t (baseId + ip.1) ip.2))

/-- `Queue.prototype.addIfMissing`:
`updateOne({_id: id}, { $setOnInsert: msg }, { upsert: true })` — the
filter matches on `_id` alone; on a match `$setOnInsert` changes nothing
and the result is `null` (`nUpserted` is 0), on a miss the document is
inserted and the given id is returned (`nUpserted` is 1). -/
def Queue.addIfMissing (q : Queue) (i : Nat) (p : α) (optsDelay : Option Nat)
    (t : Nat) (docs : List (Doc α)) : Option Nat × List (Doc α) :=
  if docs.any (fun d => d._id == i) then (none, docs)
  else (some i, docs ++ [newDoc (jsOr optsDelay q.delay) t i p])

/-- `size` query: `deleted : null, visible : { $lte : now() }`. -/
def size (t : Nat) (docs : List (Doc α)) : Nat :=
  docs.countP (getMatch t)

/-- `inFlight` query:
`ack : { $exists : true }, visible : { $gt : now() }, deleted : null`. -/
def inFlightQuery (t : Nat) (d : Doc α) : Bool :=
  d.ack.isSome && decide (t < d.visible) && (d.deleted == none)

/-- `Queue.prototype.inFlight`. -/
def inFlight (t : Nat) (docs : List (Doc α)) : Nat :=
  docs.countP (inFlightQuery t)

/-- `done` query: `deleted : { $exists : true }`. -/
def doneCount (docs : List (Doc α)) : Nat :=
  docs.countP (fun d => d.deleted.isSome)

/-- `Queue.prototype.total`: a bare count. -/
def total (docs : List (Doc α)) : Nat := docs.length

/-- `Queue.prototype.clean`: `deleteMany({ deleted : { $exists : true } })`. -/
def clean (docs : List (Doc α)) : List (Doc α) :=
  docs.filter (fun d => !d.deleted.isSome)

/-- The store state a `get` call can touch: the source collection, the
dead-letter collection, and the generators for ack tokens (`id()`) and for
store-generated `_id`s. -/
structure GState (α : Type) where
  docs : List (Doc α)
  deadDocs : List (Doc (View α))
  nextTok : Nat
  nextId : Nat
  deriving Repr

/-- `Queue.prototype.get`, with the dead-letter redirect.  The source
recursion (`self.get(callback)`, note: no `opts`) terminates because every
redirect finalizes one claimable document; it is embedded with a fuel
parameter that the top-level `Queue.get` instantiates with more fuel than
there are documents.  One call happens at one instant `t`. -/
def getAux [DecidableEq α] (q : Queue) (t : Nat) :
    Nat → Option Nat → GState α → Except String (Option (View α)) × GState α
  | 0, _, st => (.error "Queue.get(): recursion fuel exhausted", st)
  | fuel + 1, optsVis, st =>
    let visibility := jsOr optsVis q.visibility
    let tok := st.nextTok
    match claimOne visibility t tok st.docs with
    | (none, _) => (.ok none, { st with nextTok := tok + 1 })
    | (some m, docs1) =>
      let v : View α := ⟨m._id, tok, m.payload, m.tries⟩
      let st1 : GState α := { st with docs := docs1, nextTok := tok + 1 }
      match q.dead with
      | none => (.ok (some v), st1)
      | some dl =>
        if dl.maxRetries < v.tries then
          let deadDocs1 := st1.deadDocs ++ [newDoc (jsOr none dl.delay) t st1.nextId v]
          let st2 : GState α := { st1 with deadDocs := deadDocs1, nextId := st1.nextId + 1 }
          match Queue.ack tok t st2.docs with
          | (.error e, ds) => (.error e, { st2 with docs := ds })
          | (.ok _, ds) => getAux q t fuel none { st2 with docs := ds }
        else (.ok (some v), st1)

/-- `Queue.prototype.get`. -/
def Queue.get [DecidableEq α] (q : Queue) (t : Nat) (optsVis : Option Nat)
    (st : GState α) : Except String (Option (View α)) × GState α :=
  getAux q t (st.docs.length + 1) optsVis st

/-! ### Lemmas about the store primitives -/

theorem findOneAndUpdate_fst_none_iff (p : Doc α → Bool) (f : Doc α → Doc α)
    (l : List (Doc α)) :
    (findOneAndUpdate p f l).1 = none ↔ ∀ d ∈ l, p d = false := by
  induction l with
  | nil => simp [findOneAndUpdate]
  | cons d ds ih =>
    by_cases h : p d
    · simp [findOneAndUpdate, h]
    · simp only [Bool.not_eq_true] at h
      simp [findOneAndUpdate, h, ih]

theorem findOneAndUpdate_snd_of_none (p : Doc α → Bool) (f : Doc α → Doc α)
    (l : List (Doc α)) (h : ∀ d ∈ l, p d = false) :
    (findOneAndUpdate p f l).2 = l := by
  induction l with
  | nil => simp [findOneAndUpdate]
  | cons d ds ih =>
    have hd : p d = false := h d (List.mem_cons_self d ds)
    simp [findOneAndUpdate, hd, ih fun e he => h e (List.mem_cons_of_mem d he)]

theorem findOneAndUpdate_some (p : Doc α → Bool) (f : Doc α → Doc α)
    (l : List (Doc α)) (r : Doc α) (h : (findOneAndUpdate p f l).1 = some r) :
    ∃ i d, l[i]? = some d ∧ p d = true ∧ r = f d ∧
      (findOneAndUpdate p f l).2 = l.set i (f d) := by
  induction l with
  | nil => simp [findOneAndUpdate] at h
  | cons d ds ih =>
    by_cases hd : p d
    · refine ⟨0, d, by simp, hd, ?_, ?_⟩
      · exact (by simpa [findOneAndUpdate, hd] using h : f d = r).symm
      · simp [findOneAndUpdate, hd]
    · simp only [Bool.not_eq_true] at hd
      simp only [findOneAndUpdate, hd, Bool.false_eq_true, if_false] at h
      obtain ⟨i, e, hget, hpe, hr, hset⟩ := ih h
      exact ⟨i + 1, e, by simpa using hget, hpe, hr, by simp [findOneAndUpdate, hd, hset]⟩

theorem findOneAndUpdate_fst_isSome (p : Doc α → Bool) (f : Doc α → Doc α)
    (l : List (Doc α)) (d : Doc α) (hmem : d ∈ l) (hp : p d = true) :
    ((findOneAndUpdate p f l).1).isSome := by
  rcases h : (findOneAndUpdate p f l).1 with _ | r
  · exact absurd ((findOneAndUpdate_fst_none_iff p f l).1 h d hmem) (by simp [hp])
  · simp

theorem findOneAndUpdate_unique (p : Doc α → Bool) (f : Doc α → Doc α)
    (l : List (Doc α)) (j : ℕ) (e : Doc α) (hj : l[j]? = some e) (hpe : p e = true)
    (huniq : ∀ k d, l[k]? = some d → p d = true → k = j) :
    findOneAndUpdate p f l = (some (f e), l.set j (f e)) := by
  induction l generalizing j with
  | nil => simp at hj
  | cons d ds ih =>
    cases j with
    | zero =>
      simp only [List.getElem?_cons_zero, Option.some_inj] at hj
      subst hj
      simp [findOneAndUpdate, hpe]
    | succ j =>
      have hd : p d = false := by
        rcases hp : p d with _ | _
        · rfl
        · exact absurd (huniq 0 d (by simp) hp) (by simp)
      simp only [List.getElem?_cons_succ] at hj
      have := ih j hj fun k x hk hx => by
        have := huniq (k + 1) x (by simpa using hk) hx
        omega
      simp [findOneAndUpdate, hd, this]

theorem findMin_eq_none_iff (p : Doc α → Bool) (l : List (Doc α)) :
    findMin p l = none ↔ ∀ d ∈ l, p d = false := by
  induction l with
  | nil => simp [findMin]
  | cons d ds ih =>
    rcases h : findMin p ds with _ | m
    · by_cases hd : p d
      · simp [findMin, h, hd]
      · simp only [Bool.not_eq_true] at hd
        simp only [findMin, h, hd, Bool.false_eq_true, if_false]
        simp only [List.mem_cons, forall_eq_or_imp, hd, true_and]
        exact ⟨fun _ => ih.1 h, fun _ => trivial⟩
    · have hne : ¬ ∀ e ∈ ds, p e = false := by
        intro hall
        have := ih.2 hall
        simp [this] at h
      constructor
      · intro hnone
        exfalso
        by_cases hd : p d
        · by_cases hle : d._id ≤ m._id <;> simp [findMin, h, hd, hle] at hnone
        · simp only [Bool.not_eq_true] at hd
          simp [findMin, h, hd] at hnone
      · intro hall
        exact absurd (fun e he => hall e (List.mem_cons_of_mem d he)) hne

theorem findMin_some_spec (p : Doc α → Bool) (l : List (Doc α)) (m : Doc α)
    (h : findMin p l = some m) :
    m ∈ l ∧ p m = true ∧ ∀ d ∈ l, p d = true → m._id ≤ d._id := by
  induction l generalizing m with
  | nil => simp [findMin] at h
  | cons d ds ih =>
    rcases hds : findMin p ds with _ | m'
    · have hall := (findMin_eq_none_iff p ds).1 hds
      by_cases hd : p d
      · simp only [findMin, hds, hd, if_true, Option.some_inj] at h
        subst h
        exact ⟨List.mem_cons_self _ _, hd, by
          intro e he hpe
          rcases List.mem_cons.1 he with rfl | he'
          · exact le_refl _
          · exact absurd (hall e he') (by simp [hpe])⟩
      · simp only [Bool.not_eq_true] at hd
        simp [findMin, hds, hd] at h
    · obtain ⟨hm'mem, hpm', hm'min⟩ := ih m' hds
      by_cases hd : p d
      · by_cases hle : d._id ≤ m'._id
        · simp only [findMin, hds, hd, if_true, hle, Option.some_inj] at h
          subst h
          refine ⟨List.mem_cons_self _ _, hd, ?_⟩
          intro e he hpe
          rcases List.mem_cons.1 he with rfl | he'
          · exact le_refl _
          · exact le_trans hle (hm'min e he' hpe)
        · simp only [findMin, hds, hd, if_true, hle, if_false, Option.some_inj] at h
          subst h
          refine ⟨List.mem_cons_of_mem d hm'mem, hpm', ?_⟩
          intro e he hpe
          rcases List.mem_cons.1 he with rfl | he'
          · omega
          · exact hm'min e he' hpe
      · simp only [Bool.not_eq_true] at hd
        simp only [findMin, hds, hd, Bool.false_eq_true, if_false, Option.some_inj] at h
        subst h
        refine ⟨List.mem_cons_of_mem d hm'mem, hpm', ?_⟩
        intro e he hpe
        rcases List.mem_cons.1 he with rfl | he'
        · simp [hpe] at hd
        · exact hm'min e he' hpe

theorem replaceFirst_of_mem [DecidableEq α] (a b : Doc α) (l : List (Doc α))
    (h : a ∈ l) :
    ∃ i, l[i]? = some a ∧ replaceFirst a b l = l.set i b := by
  induction l with
  | nil => simp at h
  | cons d ds ih =>
    by_cases hd : d = a
    · subst hd
      exact ⟨0, by simp, by simp [replaceFirst]⟩
    · rcases List.mem_cons.1 h with rfl | h'
      · exact absurd rfl hd
      · obtain ⟨i, hget, hrep⟩ := ih h'
        exact ⟨i + 1, by simpa using hget, by simp [replaceFirst, hd, hrep]⟩

theorem claimOne_fst_none_iff [DecidableEq α] (v : Nat) (t : Nat) (tok : Nat)
    (docs : List (Doc α)) :
    (claimOne v t tok docs).1 = none ↔ ∀ d ∈ docs, getMatch t d = false := by
  rw [← findMin_eq_none_iff (getMatch t) docs]
  rcases h : findMin (getMatch t) docs with _ | m <;> simp [claimOne, h]

theorem claimOne_snd_of_none [DecidableEq α] (v : Nat) (t : Nat) (tok : Nat)
    (docs : List (Doc α)) (h : ∀ d ∈ docs, getMatch t d = false) :
    (claimOne v t tok docs).2 = docs := by
  have : findMin (getMatch t) docs = none := (findMin_eq_none_iff _ _).2 h
  simp [claimOne, this]

theorem claimOne_some_spec [DecidableEq α] (v : Nat) (t : Nat) (tok : Nat)
    (docs : List (Doc α)) (r : Doc α) (h : (claimOne v t tok docs).1 = some r) :
    ∃ i m, docs[i]? = some m ∧ getMatch t m = true ∧
      (∀ d ∈ docs, getMatch t d = true → m._id ≤ d._id) ∧
      r = claimUpdate tok (nowPlusSecs t v) m ∧
      (claimOne v t tok docs).2 = docs.set i r := by
  rcases hm : findMin (getMatch t) docs with _ | m
  · simp [claimOne, hm] at h
  · obtain ⟨hmem, hpm, hmin⟩ := findMin_some_spec _ _ _ hm
    obtain ⟨i, hget, hrep⟩ := replaceFirst_of_mem m (claimUpdate tok (nowPlusSecs t v) m) docs hmem
    have hr : r = claimUpdate tok (nowPlusSecs t v) m := by
      simpa [claimOne, hm] using h.symm
    exact ⟨i, m, hget, hpm, hmin, hr, by simp [claimOne, hm, hrep, hr]⟩

theorem getMatch_false_of_deleted (t : Nat) (d : Doc α) (h : d.deleted.isSome = true) :
    getMatch t d = false := by
  rcases hd : d.deleted with _ | x
  · rw [hd] at h
    simp at h
  · simp [getMatch, hd]

theorem ackQuery_false_of_deleted (tok t : Nat) (d : Doc α) (h : d.deleted.isSome = true) :
    ackQuery tok t d = false := by
  rcases hd : d.deleted with _ | x
  · rw [hd] at h
    simp at h
  · simp [ackQuery, hd]

theorem cancelQuery_false_of_deleted (i t : Nat) (d : Doc α) (h : d.deleted.isSome = true) :
    cancelQuery i t d = false := by
  rcases hd : d.deleted with _ | x
  · rw [hd] at h
    simp at h
  · simp [cancelQuery, hd]

theorem findOneAndUpdate_preserves_at (p : Doc α → Bool) (f : Doc α → Doc α)
    (l : List (Doc α)) (i : Nat) (d : Doc α) (hi : l[i]? = some d)
    (hpd : p d = false) : (findOneAndUpdate p f l).2[i]? = some d := by
  rcases hr : (findOneAndUpdate p f l).1 with _ | r
  · rw [findOneAndUpdate_snd_of_none p f l ((findOneAndUpdate_fst_none_iff p f l).1 hr)]
    exact hi
  · obtain ⟨j, e, hj, hpe, _, hset⟩ := findOneAndUpdate_some p f l r hr
    rw [hset]
    have hij : j ≠ i := by
      intro h
      subst h
      rw [hj] at hi
      injection hi with h'
      rw [h'] at hpe
      simp [hpe] at hpd
    rw [List.getElem?_set_ne hij]
    exact hi

theorem Queue.ack_snd (tok t : Nat) (docs : List (Doc α)) :
    (Queue.ack tok t docs).2
      = (findOneAndUpdate (ackQuery tok t) (fun d => { d with deleted := some t }) docs).2 := by
  rcases h : findOneAndUpdate (ackQuery tok t) (fun d => { d with deleted := some t }) docs
    with ⟨r, ds⟩
  rcases r with _ | m <;> simp [Queue.ack, h]

theorem claimOne_preserves_at [DecidableEq α] (v t tok : Nat) (docs : List (Doc α))
    (i : Nat) (d : Doc α) (hi : docs[i]? = some d) (hpd : getMatch t d = false) :
    (claimOne v t tok docs).2[i]? = some d := by
  rcases hr : (claimOne v t tok docs).1 with _ | r
  · rw [claimOne_snd_of_none v t tok docs ((claimOne_fst_none_iff v t tok docs).1 hr)]
    exact hi
  · obtain ⟨j, m, hj, hm, _, _, hset⟩ := claimOne_some_spec v t tok docs r hr
    rw [hset]
    have hij : j ≠ i := by
      intro h
      subst h
      rw [hj] at hi
      injection hi with h'
      rw [h'] at hm
      simp [hm] at hpd
    rw [List.getElem?_set_ne hij]
    exact hi

theorem findOneAndUpdate_map_eq (p : Doc α → Bool) (f : Doc α → Doc α)
    (g : Doc α → β) (hg : ∀ d, g (f d) = g d) (l : List (Doc α)) :
    ((findOneAndUpdate p f l).2).map g = l.map g := by
  induction l with
  | nil => simp [findOneAndUpdate]
  | cons d ds ih =>
    by_cases h : p d
    · simp [findOneAndUpdate, h, hg]
    · simp only [Bool.not_eq_true] at h
      simp [findOneAndUpdate, h, ih]

theorem map_set_self (g : Doc α → β) (l : List (Doc α)) (i : ℕ) (a : Doc α)
    (h : ∀ b, l[i]? = some b → g a = g b) : (l.set i a).map g = l.map g := by
  induction l generalizing i with
  | nil => simp
  | cons d ds ih =>
    cases i with
    | zero =>
      simp only [List.set_cons_zero, List.map_cons, List.cons.injEq]
      exact ⟨h d (by simp), by simp⟩
    | succ j =>
      simp only [List.set_cons_succ, List.map_cons, List.cons.injEq]
      exact ⟨trivial, ih j fun b hb => h b (by simpa using hb)⟩

theorem claimOne_map_id [DecidableEq α] (v t tok : Nat) (docs : List (Doc α)) :
    ((claimOne v t tok docs).2).map Doc._id = docs.map Doc._id := by
  rcases hr : (claimOne v t tok docs).1 with _ | r
  · rw [claimOne_snd_of_none v t tok docs ((claimOne_fst_none_iff v t tok docs).1 hr)]
  · obtain ⟨j, m, hj, _, _, hupd, hset⟩ := claimOne_some_spec v t tok docs r hr
    rw [hset]
    refine map_set_self Doc._id docs j r ?_
    intro b hb
    rw [hj] at hb
    injection hb with h'
    rw [← h', hupd]
    rfl

theorem ack_map_id (tok t : Nat) (docs : List (Doc α)) :
    ((Queue.ack tok t docs).2).map Doc._id = docs.map Doc._id := by
  rw [Queue.ack_snd]
  exact findOneAndUpdate_map_eq (ackQuery tok t) (fun d => { d with deleted := some t })
    Doc._id (fun d => rfl) docs

theorem getAux_preserves_deleted [DecidableEq α] (q : Queue) (t : Nat) :
    ∀ (fuel : Nat) (ov : Option Nat) (st : GState α) (i : Nat) (d : Doc α),
      st.docs[i]? = some d → d.deleted.isSome = true →
      ((getAux q t fuel ov st).2).docs[i]? = some d := by
  intro fuel
  induction fuel with
  | zero =>
    intro ov st i d hi hd
    simpa [getAux] using hi
  | succ n ih =>
    intro ov st i d hi hd
    rcases hc : claimOne (jsOr ov q.visibility) t st.nextTok st.docs with ⟨ro, docs1⟩
    have hpres1 : docs1[i]? = some d := by
      have := claimOne_preserves_at (jsOr ov q.visibility) t st.nextTok st.docs i d hi
        (getMatch_false_of_deleted t d hd)
      rw [hc] at this
      exact this
    rcases ro with _ | r
    · simpa [getAux, hc] using hi
    · rcases hdead : q.dead with _ | dl
      · simpa [getAux, hc, hdead] using hpres1
      · by_cases hretry : dl.maxRetries < r.tries
        · have hackpres : (Queue.ack st.nextTok t docs1).2[i]? = some d := by
            rw [Queue.ack_snd]
            exact findOneAndUpdate_preserves_at _ _ docs1 i d hpres1
              (ackQuery_false_of_deleted st.nextTok t d hd)
          rcases hack : Queue.ack st.nextTok t docs1 with ⟨res, ds⟩
          rw [hack] at hackpres
          rcases res with e | x
          · simpa [getAux, hc, hdead, hretry, hack] using hackpres
          · have := ih none
              { docs := ds
                deadDocs := st.deadDocs ++ [newDoc (jsOr none dl.delay) t st.nextId
                  ⟨r._id, st.nextTok, r.payload, r.tries⟩]
                nextTok := st.nextTok + 1
                nextId := st.nextId + 1 } i d hackpres hd
            simpa [getAux, hc, hdead, hretry, hack] using this
        · simpa [getAux, hc, hdead, hretry] using hpres1

theorem Queue.ping_snd (q : Queue) (tok : Nat) (ov : Option Nat) (t : Nat)
    (docs : List (Doc α)) :
    (Queue.ping q tok ov t docs).2
      = (findOneAndUpdate (ackQuery tok t)
          (fun d => { d with visible := nowPlusSecs t (jsOr ov q.visibility) }) docs).2 := by
  rcases h : findOneAndUpdate (ackQuery tok t)
      (fun d => { d with visible := nowPlusSecs t (jsOr ov q.visibility) }) docs with ⟨r, ds⟩
  rcases r with _ | m <;> simp [Queue.ping, h]

theorem Queue.cancel_snd (i t : Nat) (docs : List (Doc α)) :
    (Queue.cancel i t docs).2
      = (findOneAndUpdate (cancelQuery i t) (fun d => { d with deleted := some t }) docs).2 := by
  rcases h : findOneAndUpdate (cancelQuery i t) (fun d => { d with deleted := some t }) docs
    with ⟨r, ds⟩
  rcases r with _ | m <;> simp [Queue.cancel, h]

theorem nodup_map_id_ne (l : List (Doc α)) (h : (l.map Doc._id).Nodup)
    (i j : Nat) (d e : Doc α) (hi : l[i]? = some d) (hj : l[j]? = some e)
    (hij : i ≠ j) : d._id ≠ e._id := by
  have hi' : (l.map Doc._id)[i]? = some d._id := by
    rw [List.getElem?_map, hi]
    rfl
  have hj' : (l.map Doc._id)[j]? = some e._id := by
    rw [List.getElem?_map, hj]
    rfl
  intro heq
  apply hij
  refine List.getElem?_inj ?_ h ?_
  · exact (List.getElem?_eq_some_iff.1 hi').1
  · rw [hi', hj', heq]

theorem getAux_dead_mono [DecidableEq α] (q : Queue) (t : Nat) :
    ∀ (fuel : Nat) (ov : Option Nat) (st : GState α) (i : Nat) (d : Doc (View α)),
      st.deadDocs[i]? = some d →
      ((getAux q t fuel ov st).2).deadDocs[i]? = some d := by
  intro fuel
  induction fuel with
  | zero =>
    intro ov st i d hi
    simpa [getAux] using hi
  | succ n ih =>
    intro ov st i d hi
    rcases hc : claimOne (jsOr ov q.visibility) t st.nextTok st.docs with ⟨ro, docs1⟩
    rcases ro with _ | r
    · simpa [getAux, hc] using hi
    · rcases hdead : q.dead with _ | dl
      · simpa [getAux, hc, hdead] using hi
      · by_cases hretry : dl.maxRetries < r.tries
        · have hilen : i < st.deadDocs.length := (List.getElem?_eq_some_iff.1 hi).1
          have happ : (st.deadDocs ++ [newDoc (jsOr none dl.delay) t st.nextId
              ⟨r._id, st.nextTok, r.payload, r.tries⟩])[i]? = some d := by
            rw [List.getElem?_append_left hilen]
            exact hi
          rcases hack : Queue.ack st.nextTok t docs1 with ⟨res, ds⟩
          rcases res with e | x
          · simpa [getAux, hc, hdead, hretry, hack] using happ
          · have := ih none
              { docs := ds
                deadDocs := st.deadDocs ++ [newDoc (jsOr none dl.delay) t st.nextId
                  ⟨r._id, st.nextTok, r.payload, r.tries⟩]
                nextTok := st.nextTok + 1
                nextId := st.nextId + 1 } i d happ
            simpa [getAux, hc, hdead, hretry, hack] using this
        · simpa [getAux, hc, hdead, hretry] using hi

theorem getAux_tries_le [DecidableEq α] (q : Queue) (t : Nat) (dl : DeadLetter)
    (hdl : q.dead = some dl) :
    ∀ (fuel : Nat) (ov : Option Nat) (st : GState α) (v : View α),
      (getAux q t fuel ov st).1 = .ok (some v) → v.tries ≤ dl.maxRetries := by
  intro fuel
  induction fuel with
  | zero =>
    intro ov st v hv
    simp [getAux] at hv
  | succ n ih =>
    intro ov st v hv
    rcases hc : claimOne (jsOr ov q.visibility) t st.nextTok st.docs with ⟨ro, docs1⟩
    rcases ro with _ | r
    · simp [getAux, hc] at hv
    · by_cases hretry : dl.maxRetries < r.tries
      · rcases hack : Queue.ack st.nextTok t docs1 with ⟨res, ds⟩
        rcases res with e | x
        · simp [getAux, hc, hdl, hretry, hack] at hv
        · have hrec : (getAux q t n none
              { docs := ds
                deadDocs := st.deadDocs ++ [newDoc (jsOr none dl.delay) t st.nextId
                  ⟨r._id, st.nextTok, r.payload, r.tries⟩]
                nextTok := st.nextTok + 1
                nextId := st.nextId + 1 } : Except String (Option (View α)) × GState α).1
              = .ok (some v) := by
            rw [← hv]
            simp [getAux, hc, hdl, hretry, hack]
          exact ih none _ v hrec
      · have : v = ⟨r._id, st.nextTok, r.payload, r.tries⟩ := by
          have := hv
          simp [getAux, hc, hdl, hretry] at this
          exact this.symm
        rw [this]
        show r.tries ≤ dl.maxRetries
        omega

theorem getAux_map_id [DecidableEq α] (q : Queue) (t : Nat) :
    ∀ (fuel : Nat) (ov : Option Nat) (st : GState α),
      ((getAux q t fuel ov st).2).docs.map Doc._id = st.docs.map Doc._id := by
  intro fuel
  induction fuel with
  | zero =>
    intro ov st
    simp [getAux]
  | succ n ih =>
    intro ov st
    rcases hc : claimOne (jsOr ov q.visibility) t st.nextTok st.docs with ⟨ro, docs1⟩
    have hmap1 : docs1.map Doc._id = st.docs.map Doc._id := by
      have := claimOne_map_id (jsOr ov q.visibility) t st.nextTok st.docs
      rw [hc] at this
      exact this
    rcases ro with _ | r
    · simp [getAux, hc]
    · rcases hdead : q.dead with _ | dl
      · simpa [getAux, hc, hdead] using hmap1
      · by_cases hretry : dl.maxRetries < r.tries
        · have hmap2 : (Queue.ack st.nextTok t docs1).2.map Doc._id = st.docs.map Doc._id := by
            rw [ack_map_id, hmap1]
          rcases hack : Queue.ack st.nextTok t docs1 with ⟨res, ds⟩
          rw [hack] at hmap2
          rcases res with e | x
          · simpa [getAux, hc, hdead, hretry, hack] using hmap2
          · have := ih none
              { docs := ds
                deadDocs := st.deadDocs ++ [newDoc (jsOr none dl.delay) t st.nextId
                  ⟨r._id, st.nextTok, r.payload, r.tries⟩]
                nextTok := st.nextTok + 1
                nextId := st.nextId + 1 }
            simp [getAux, hc, hdead, hretry, hack]
            rw [this]
            exact hmap2
        · simpa [getAux, hc, hdead, hretry] using hmap1

theorem getAux_returned_id_not_deleted [DecidableEq α] (q : Queue) (t : Nat) :
    ∀ (fuel : Nat) (ov : Option Nat) (st : GState α) (i : Nat) (d : Doc α) (v : View α),
      (st.docs.map Doc._id).Nodup → st.docs[i]? = some d → d.deleted.isSome = true →
      (getAux q t fuel ov st).1 = .ok (some v) → v.id ≠ d._id := by
  intro fuel
  induction fuel with
  | zero =>
    intro ov st i d v _ _ _ hv
    simp [getAux] at hv
  | succ n ih =>
    intro ov st i d v hnd hi hd hv
    rcases hc : claimOne (jsOr ov q.visibility) t st.nextTok st.docs with ⟨ro, docs1⟩
    rcases ro with _ | r
    · simp [getAux, hc] at hv
    · obtain ⟨j, m, hj, hm, _, hrupd, hset⟩ :=
        claimOne_some_spec (jsOr ov q.visibility) t st.nextTok st.docs r (by rw [hc])
      have hij : j ≠ i := by
        intro h
        subst h
        rw [hj] at hi
        injection hi with h'
        rw [h'] at hm
        rw [getMatch_false_of_deleted t d hd] at hm
        cases hm
      have hne : m._id ≠ d._id :=
        nodup_map_id_ne st.docs hnd j i m d hj hi hij
      have hrid : r._id = m._id := by
        rw [hrupd]
        rfl
      have hview : (⟨r._id, st.nextTok, r.payload, r.tries⟩ : View α).id ≠ d._id := by
        simpa [hrid] using hne
      rcases hdead : q.dead with _ | dl
      · have : v = ⟨r._id, st.nextTok, r.payload, r.tries⟩ := by
          have h2 := hv
          simp [getAux, hc, hdead] at h2
          exact h2.symm
        rw [this]
        exact hview
      · by_cases hretry : dl.maxRetries < r.tries
        · rcases hack : Queue.ack st.nextTok t docs1 with ⟨res, ds⟩
          rcases res with e | x
          · simp [getAux, hc, hdead, hretry, hack] at hv
          · have hpres1 : docs1[i]? = some d := by
              have := claimOne_preserves_at (jsOr ov q.visibility) t st.nextTok st.docs i d hi
                (getMatch_false_of_deleted t d hd)
              rw [hc] at this
              exact this
            have hpres2 : ds[i]? = some d := by
              have := findOneAndUpdate_preserves_at (ackQuery st.nextTok t)
                (fun x => { x with deleted := some t }) docs1 i d hpres1
                (ackQuery_false_of_deleted st.nextTok t d hd)
              rw [← Queue.ack_snd, hack] at this
              exact this
            have hmapds : ds.map Doc._id = st.docs.map Doc._id := by
              have h1 : docs1.map Doc._id = st.docs.map Doc._id := by
                have := claimOne_map_id (jsOr ov q.visibility) t st.nextTok st.docs
                rw [hc] at this
                exact this
              have h2 := ack_map_id st.nextTok t docs1
              rw [hack] at h2
              rw [h2, h1]
            have hrec : (getAux q t n none
                { docs := ds
                  deadDocs := st.deadDocs ++ [newDoc (jsOr none dl.delay) t st.nextId
                    ⟨r._id, st.nextTok, r.payload, r.tries⟩]
                  nextTok := st.nextTok + 1
                  nextId := st.nextId + 1 } : Except String (Option (View α)) × GState α).1
                = .ok (some v) := by
              rw [← hv]
              simp [getAux, hc, hdead, hretry, hack]
            exact ih none _ i d v (by rw [hmapds]; exact hnd) hpres2 hd hrec
        · have : v = ⟨r._id, st.nextTok, r.payload, r.tries⟩ := by
            have h2 := hv
            simp [getAux, hc, hdead, hretry] at h2
            exact h2.symm
          rw [this]
          exact hview

/-! ### Claim theorems -/

/-- C10: when `get` is called with a call-level visibility override and the
first claimed message is redirected to the dead-letter queue, the internal
recursion (`self.get(callback)` — no `opts`) passes no options, so the
message actually returned to the caller is claimed with the queue's
configured visibility, not the caller's override: on a queue with
visibility `V` and retry ceiling 2, holding an over-retried message
(id 1, `tries = 2`) ahead of a fresh one (id 2), `get` at `now = 0` with
visibility option `v` returns message 2 leased until `0 + V` (and not
`0 + v`). -/
theorem dead_letter_recursion_drops_options (v V : Nat) (hv : v ≠ 0) :
    (Queue.get { visibility := V, delay := 0, dead := some ⟨0, 2⟩ } 0 (some v)
        { docs := [{ _id := 1, visible := 0, payload := 10, tries := 2 },
                   { _id := 2, visible := 0, payload := 20 }]
          deadDocs := ([] : List (Doc (View Nat)))
          nextTok := 5
          nextId := 100 }).1 = .ok (some ⟨2, 6, 20, 1⟩) ∧
    ((Queue.get { visibility := V, delay := 0, dead := some ⟨0, 2⟩ } 0 (some v)
        { docs := [{ _id := 1, visible := 0, payload := 10, tries := 2 },
                   { _id := 2, visible := 0, payload := 20 }]
          deadDocs := ([] : List (Doc (View Nat)))
          nextTok := 5
          nextId := 100 }).2).docs[1]?
      = some { _id := 2, visible := 0 + V, payload := 20, ack := some 6, tries := 1 } := by
  have hv' : (0 : Nat) < v := Nat.pos_of_ne_zero hv
  constructor <;>
    simp [Queue.get, getAux, claimOne, findMin, getMatch, replaceFirst, claimUpdate,
      jsOr, hv, Queue.ack, findOneAndUpdate, ackQuery, newDoc, hv', nowPlusSecs]

/-- C6: for every queue state, `size + inFlight + done ≤ total` — the three
count queries (claimable, leased, finalized) are pairwise disjoint — and
immediately after a fresh `add` of one message with no delay into an empty
queue, `size = 1`, `inFlight = 0`, `done = 0`. -/
theorem counts_partition (t : Nat) (docs : List (Doc α)) (q : Queue) (p : α)
    (newId : Nat) (hdelay : q.delay = 0) :
    size t docs + inFlight t docs + doneCount docs ≤ total docs ∧
    size t (Queue.add q p none t newId []) = 1 ∧
    inFlight t (Queue.add q p none t newId []) = 0 ∧
    doneCount (Queue.add q p none t newId []) = 0 := by
  constructor
  · have disj : ∀ d : Doc α,
        (if getMatch t d then 1 else 0) + (if inFlightQuery t d then 1 else 0)
          + (if d.deleted.isSome then 1 else 0) ≤ 1 := by
      intro d
      rcases hdel : d.deleted with _ | x
      · have hdone : d.deleted.isSome = false := by simp [hdel]
        by_cases hv : d.visible ≤ t
        · have hnl : ¬ (t < d.visible) := Nat.not_lt.2 hv
          have hf : inFlightQuery t d = false := by simp [inFlightQuery, hnl]
          simp [hf, hdone]
          split <;> omega
        · have hg : getMatch t d = false := by simp [getMatch, hv]
          simp [hg, hdone]
          split <;> omega
      · have hg : getMatch t d = false := by simp [getMatch, hdel]
        have hf : inFlightQuery t d = false := by simp [inFlightQuery, hdel]
        simp [hg, hf, hdel]
    induction docs with
    | nil => simp [size, inFlight, doneCount, total]
    | cons d ds ih =>
      simp only [size, inFlight, doneCount, total, List.countP_cons, List.length_cons]
      simp only [size, inFlight, doneCount, total] at ih
      have := disj d
      omega
  · refine ⟨?_, ?_, ?_⟩ <;>
      simp [Queue.add, newDoc, hdelay, jsOr, size, inFlight, doneCount, getMatch,
        inFlightQuery]

/-- C4: `addIfMissing` is idempotent per identifier: on a queue holding no
message with id `i`, the first call inserts exactly one message with the
given payload and returns `some i`; a second call with the same id returns
`none`, leaves the collection unchanged (fields are set only on the insert
branch), and exactly one stored message with id `i` exists. -/
theorem addIfMissing_idempotent (q : Queue) (i : Nat) (p p2 : α)
    (od1 od2 : Option Nat) (t1 t2 : Nat) (docs : List (Doc α))
    (hfresh : ∀ d ∈ docs, d._id ≠ i) :
    (Queue.addIfMissing q i p od1 t1 docs).1 = some i ∧
    (Queue.addIfMissing q i p od1 t1 docs).2
      = docs ++ [newDoc (jsOr od1 q.delay) t1 i p] ∧
    (Queue.addIfMissing q i p2 od2 t2 (Queue.addIfMissing q i p od1 t1 docs).2).1
      = none ∧
    (Queue.addIfMissing q i p2 od2 t2 (Queue.addIfMissing q i p od1 t1 docs).2).2
      = docs ++ [newDoc (jsOr od1 q.delay) t1 i p] ∧
    ((Queue.addIfMissing q i p2 od2 t2 (Queue.addIfMissing q i p od1 t1 docs).2).2).countP
      (fun d => d._id == i) = 1 := by
  have hany : docs.any (fun d => d._id == i) = false := by
    simp only [List.any_eq_false]
    intro d hd
    simpa using hfresh d hd
  have h1 : Queue.addIfMissing q i p od1 t1 docs
      = (some i, docs ++ [newDoc (jsOr od1 q.delay) t1 i p]) := by
    simp [Queue.addIfMissing, hany]
  have hany2 : (docs ++ [newDoc (jsOr od1 q.delay) t1 i p]).any (fun d => d._id == i)
      = true := by
    simp [newDoc]
  have h2 : Queue.addIfMissing q i p2 od2 t2 (docs ++ [newDoc (jsOr od1 q.delay) t1 i p])
      = (none, docs ++ [newDoc (jsOr od1 q.delay) t1 i p]) := by
    simp [Queue.addIfMissing, hany2]
  have hcount : docs.countP (fun d => d._id == i) = 0 := by
    simp only [List.countP_eq_zero]
    intro d hd
    simpa using hfresh d hd
  refine ⟨by simp [h1], by simp [h1], by simp [h1, h2], by simp [h1, h2], ?_⟩
  have e2 : (Queue.addIfMissing q i p2 od2 t2 (Queue.addIfMissing q i p od1 t1 docs).2).2
      = docs ++ [newDoc (jsOr od1 q.delay) t1 i p] := by
    rw [h1]
    exact congrArg Prod.snd h2
  rw [e2, List.countP_append, hcount]
  simp [newDoc]

/-- C8 counterexample: the claim asserts that a call-level `delay = 0`
yields `visible_at = now + 0 = now` regardless of the queue's configured
delay.  On a queue configured with `delay = 10`, `add(p, {delay: 0})` at
`now = 100` inserts a message with `visible = 110`, not `100`: the falsy
`0` falls back to the queue default (`opts.delay || self.delay`). -/
theorem add_delay_zero_falls_back :
    Queue.add ({ delay := 10 } : Queue) (0 : Nat) (some 0) 100 1 []
      = [{ _id := 1, visible := 110, payload := 0 }] ∧ (110 : Nat) ≠ 100 + 0 := by
  constructor
  · rfl
  · decide

/-- C8 amended: a *nonzero* call-level option overrides the queue-level
default (`delay = d ≠ 0` makes the inserted `visible` equal `now + d`
regardless of the configured delay, and likewise `visibility = v ≠ 0` for
`get`/`ping`); a zero or absent option falls back to the queue default. -/
theorem nonzero_call_option_overrides [DecidableEq α] (q : Queue) (pl : α) (d v : Nat)
    (i newId tok : Nat) (t : Nat) (docs : List (Doc α)) (st : GState α)
    (hd : d ≠ 0) (hv : v ≠ 0) :
    Queue.add q pl (some d) t newId docs
      = Queue.add { q with delay := d } pl none t newId docs ∧
    Queue.add q pl (some d) t newId docs
      = docs ++ [{ _id := newId, visible := t + d, payload := pl }] ∧
    Queue.addIfMissing q i pl (some d) t docs
      = Queue.addIfMissing { q with delay := d } i pl none t docs ∧
    Queue.ping q tok (some v) t docs
      = Queue.ping { q with visibility := v } tok none t docs ∧
    (q.dead = none →
      Queue.get q t (some v) st = Queue.get { q with visibility := v } t none st) := by
  refine ⟨?_, ?_, ?_, ?_, ?_⟩
  · simp [Queue.add, jsOr, hd]
  · simp [Queue.add, jsOr, newDoc, hd, nowPlusSecs]
  · simp [Queue.addIfMissing, jsOr, hd]
  · simp [Queue.ping, jsOr, hv]
  · intro hdead
    simp [Queue.get, getAux, jsOr, hv, hdead]

theorem ping_ok_spec (q : Queue) (tok : Nat) (ov : Option Nat) (t : Nat)
    (docs : List (Doc α)) (m : Nat) (hm : (Queue.ping q tok ov t docs).1 = .ok m) :
    ∃ j e, docs[j]? = some e ∧ ackQuery tok t e = true ∧ m = e._id ∧
      (Queue.ping q tok ov t docs).2
        = docs.set j { e with visible := nowPlusSecs t (jsOr ov q.visibility) } := by
  rcases hp : findOneAndUpdate (ackQuery tok t)
      (fun d => { d with visible := nowPlusSecs t (jsOr ov q.visibility) }) docs
    with ⟨rp, dsp⟩
  rcases rp with _ | e
  · simp [Queue.ping, hp] at hm
  · obtain ⟨j, x, hget, hx, he, hset⟩ := findOneAndUpdate_some (ackQuery tok t)
      (fun d => { d with visible := nowPlusSecs t (jsOr ov q.visibility) }) docs e
      (by rw [hp])
    have hm' : m = e._id := by
      have h2 : (Queue.ping q tok ov t docs).1 = .ok e._id := by simp [Queue.ping, hp]
      rw [hm] at h2
      exact Except.ok.inj h2
    refine ⟨j, x, hget, hx, by rw [hm', he], ?_⟩
    have h2 : (Queue.ping q tok ov t docs).2 = dsp := by simp [Queue.ping, hp]
    rw [h2, ← hset, hp]

/-- C1: on a queue without a dead-letter target, `get` claims at most one
message: if no message satisfies `deleted = null ∧ visible ≤ now` it
returns `none` (not an error) touching nothing; otherwise it picks a
matching message of minimal `_id`, and in the same atomic update increments
`tries`, sets the freshly generated ack token, and sets
`visible = now + visibility` (visibility defaulting to the queue's
configured value); every other message is untouched, and the returned view
exposes exactly id, ack, payload, tries. -/
theorem get_claims_minimal_or_none [DecidableEq α] (q : Queue) (t : Nat)
    (ov : Option Nat) (st : GState α) (hdead : q.dead = none) :
    ((∀ d ∈ st.docs, getMatch t d = false) →
      (Queue.get q t ov st).1 = .ok none ∧ ((Queue.get q t ov st).2).docs = st.docs) ∧
    ((∃ d ∈ st.docs, getMatch t d = true) →
      ∃ v, (Queue.get q t ov st).1 = .ok (some v)) ∧
    (∀ v, (Queue.get q t ov st).1 = .ok (some v) →
      ∃ (i : ℕ) (m : Doc α), st.docs[i]? = some m ∧ getMatch t m = true ∧
        (∀ d ∈ st.docs, getMatch t d = true → m._id ≤ d._id) ∧
        v = ⟨m._id, st.nextTok, m.payload, m.tries + 1⟩ ∧
        ((Queue.get q t ov st).2).docs
          = st.docs.set i (claimUpdate st.nextTok (nowPlusSecs t (jsOr ov q.visibility)) m) ∧
        (∀ j, j ≠ i → ((Queue.get q t ov st).2).docs[j]? = st.docs[j]?)) := by
  rcases hc : claimOne (jsOr ov q.visibility) t st.nextTok st.docs with ⟨ro, docs1⟩
  refine ⟨?_, ?_, ?_⟩
  · intro hall
    have hnone : ro = none := by
      have := (claimOne_fst_none_iff (jsOr ov q.visibility) t st.nextTok st.docs).2 hall
      rw [hc] at this
      exact this
    subst hnone
    have hsnd : docs1 = st.docs := by
      have := claimOne_snd_of_none (jsOr ov q.visibility) t st.nextTok st.docs hall
      rw [hc] at this
      exact this
    constructor
    · simp [Queue.get, getAux, hc]
    · simp [Queue.get, getAux, hc]
  · rintro ⟨d, hdm, hdq⟩
    rcases ro with _ | r
    · have := (claimOne_fst_none_iff (jsOr ov q.visibility) t st.nextTok st.docs).1
        (by rw [hc])
      rw [this d hdm] at hdq
      cases hdq
    · exact ⟨⟨r._id, st.nextTok, r.payload, r.tries⟩, by simp [Queue.get, getAux, hc, hdead]⟩
  · intro v hv
    rcases ro with _ | r
    · simp [Queue.get, getAux, hc] at hv
    · obtain ⟨i, m, hj, hm, hmin, hrupd, hset⟩ :=
        claimOne_some_spec (jsOr ov q.visibility) t st.nextTok st.docs r (by rw [hc])
      have hdocs1 : docs1 = st.docs.set i r := by
        rw [← hset, hc]
      have hvv : v = ⟨r._id, st.nextTok, r.payload, r.tries⟩ := by
        have h2 := hv
        simp [Queue.get, getAux, hc, hdead] at h2
        exact h2.symm
      refine ⟨i, m, hj, hm, hmin, ?_, ?_, ?_⟩
      · rw [hvv, hrupd]
        rfl
      · have : ((Queue.get q t ov st).2).docs = docs1 := by
          simp [Queue.get, getAux, hc, hdead]
        rw [this, hdocs1, hrupd]
      · intro j hji
        have : ((Queue.get q t ov st).2).docs = docs1 := by
          simp [Queue.get, getAux, hc, hdead]
        rw [this, hdocs1, List.getElem?_set_ne (fun h => hji h.symm)]

/-- C5: a finalized message (`deleted` set) is left entirely unchanged —
same document at the same position — by `add`, `addIfMissing`, `ping`,
`ack`, `cancel` and `get` (every mutating query requires `deleted : null`,
and `addIfMissing` only sets fields on insert), and `get` never returns a
view of a finalized message. -/
theorem deleted_messages_untouched [DecidableEq α] (q : Queue) (t : Nat) (pl : α)
    (od ov : Option Nat) (newId iid tok : Nat) (docs : List (Doc α)) (st : GState α)
    (i : Nat) (d : Doc α) (hi : docs[i]? = some d) (hd : d.deleted.isSome = true)
    (hnd : (st.docs.map Doc._id).Nodup) :
    (Queue.add q pl od t newId docs)[i]? = some d ∧
    ((Queue.addIfMissing q iid pl od t docs).2)[i]? = some d ∧
    ((Queue.ping q tok ov t docs).2)[i]? = some d ∧
    ((Queue.ack tok t docs).2)[i]? = some d ∧
    ((Queue.cancel iid t docs).2)[i]? = some d ∧
    (∀ (j : ℕ) (e : Doc α), st.docs[j]? = some e → e.deleted.isSome = true →
      ((Queue.get q t ov st).2).docs[j]? = some e ∧
      ∀ v, (Queue.get q t ov st).1 = .ok (some v) → v.id ≠ e._id) := by
  have hilen : i < docs.length := (List.getElem?_eq_some_iff.1 hi).1
  refine ⟨?_, ?_, ?_, ?_, ?_, ?_⟩
  · rw [Queue.add, List.getElem?_append_left hilen]
    exact hi
  · rw [Queue.addIfMissing]
    split
    · exact hi
    · simp only
      rw [List.getElem?_append_left hilen]
      exact hi
  · rw [Queue.ping_snd]
    exact findOneAndUpdate_preserves_at _ _ docs i d hi
      (ackQuery_false_of_deleted tok t d hd)
  · rw [Queue.ack_snd]
    exact findOneAndUpdate_preserves_at _ _ docs i d hi
      (ackQuery_false_of_deleted tok t d hd)
  · rw [Queue.cancel_snd]
    exact findOneAndUpdate_preserves_at _ _ docs i d hi
      (cancelQuery_false_of_deleted iid t d hd)
  · intro j e hj he
    constructor
    · exact getAux_preserves_deleted q t (st.docs.length + 1) ov st j e hj he
    · intro v hv
      exact getAux_returned_id_not_deleted q t (st.docs.length + 1) ov st j e v hnd hj he hv

/-- C3: `ping` and `ack` succeed exactly when some message matches the ack
token with `deleted = null` and `visible > now`; on success `ping` sets
`visible = now + visibility` and returns the message's `_id`, `ack` sets
`deleted = now` and returns the `_id`; when no document matches (wrong or
stale token, or an expired lease — indistinguishable, as both just fail the
query) each fails with an "Unidentified ack" error and mutates nothing. -/
theorem ping_ack_unidentified_semantics (q : Queue) (tok : Nat) (ov : Option Nat)
    (t : Nat) (docs : List (Doc α)) :
    ((∃ d ∈ docs, ackQuery tok t d = true) ↔
      ∃ m, (Queue.ping q tok ov t docs).1 = .ok m) ∧
    ((∃ d ∈ docs, ackQuery tok t d = true) ↔
      ∃ m, (Queue.ack tok t docs).1 = .ok m) ∧
    (∀ m, (Queue.ping q tok ov t docs).1 = .ok m →
      ∃ j e, docs[j]? = some e ∧ ackQuery tok t e = true ∧ m = e._id ∧
        (Queue.ping q tok ov t docs).2
          = docs.set j { e with visible := nowPlusSecs t (jsOr ov q.visibility) }) ∧
    (∀ m, (Queue.ack tok t docs).1 = .ok m →
      ∃ j e, docs[j]? = some e ∧ ackQuery tok t e = true ∧ m = e._id ∧
        (Queue.ack tok t docs).2 = docs.set j { e with deleted := some t }) ∧
    ((∀ d ∈ docs, ackQuery tok t d = false) →
      Queue.ping q tok ov t docs
        = (.error ("Queue.ping(): Unidentified ack  : " ++ toString tok), docs) ∧
      Queue.ack tok t docs
        = (.error ("Queue.ack(): Unidentified ack : " ++ toString tok), docs)) := by
  rcases hp : findOneAndUpdate (ackQuery tok t)
      (fun d => { d with visible := nowPlusSecs t (jsOr ov q.visibility) }) docs
    with ⟨rp, dsp⟩
  rcases ha : findOneAndUpdate (ackQuery tok t)
      (fun d => { d with deleted := some t }) docs with ⟨ra, dsa⟩
  refine ⟨?_, ?_, ?_, ?_, ?_⟩
  · constructor
    · rintro ⟨d, hd, hq⟩
      have hs := findOneAndUpdate_fst_isSome (ackQuery tok t)
        (fun d => { d with visible := nowPlusSecs t (jsOr ov q.visibility) }) docs d hd hq
      rw [hp] at hs
      rcases rp with _ | m
      · simp at hs
      · exact ⟨m._id, by simp [Queue.ping, hp]⟩
    · rintro ⟨m, hm⟩
      rcases rp with _ | e
      · simp [Queue.ping, hp] at hm
      · have := findOneAndUpdate_some (ackQuery tok t)
          (fun d => { d with visible := nowPlusSecs t (jsOr ov q.visibility) }) docs e
          (by rw [hp])
        obtain ⟨j, x, hget, hx, _, _⟩ := this
        have hxm : x ∈ docs := by
          have h' := List.getElem?_eq_some_iff.1 hget
          exact List.mem_iff_getElem.2 ⟨j, h'.1, h'.2⟩
        exact ⟨x, hxm, hx⟩
  · constructor
    · rintro ⟨d, hd, hq⟩
      have hs := findOneAndUpdate_fst_isSome (ackQuery tok t)
        (fun d => { d with deleted := some t }) docs d hd hq
      rw [ha] at hs
      rcases ra with _ | m
      · simp at hs
      · exact ⟨m._id, by simp [Queue.ack, ha]⟩
    · rintro ⟨m, hm⟩
      rcases ra with _ | e
      · simp [Queue.ack, ha] at hm
      · have := findOneAndUpdate_some (ackQuery tok t)
          (fun d => { d with deleted := some t }) docs e (by rw [ha])
        obtain ⟨j, x, hget, hx, _, _⟩ := this
        have hxm : x ∈ docs := by
          have h' := List.getElem?_eq_some_iff.1 hget
          exact List.mem_iff_getElem.2 ⟨j, h'.1, h'.2⟩
        exact ⟨x, hxm, hx⟩
  · exact ping_ok_spec q tok ov t docs
  · intro m hm
    rcases ra with _ | e
    · simp [Queue.ack, ha] at hm
    · obtain ⟨j, x, hget, hx, he, hset⟩ := findOneAndUpdate_some (ackQuery tok t)
        (fun d => { d with deleted := some t }) docs e (by rw [ha])
      have hm' : m = e._id := by
        have : (Queue.ack tok t docs).1 = .ok e._id := by simp [Queue.ack, ha]
        rw [hm] at this
        exact Except.ok.inj this
      refine ⟨j, x, hget, hx, by rw [hm', he], ?_⟩
      have : (Queue.ack tok t docs).2 = dsa := by simp [Queue.ack, ha]
      rw [this, ← hset, ha]
  · intro hall
    have hp1 : rp = none := by
      have := (findOneAndUpdate_fst_none_iff (ackQuery tok t)
        (fun d => { d with visible := nowPlusSecs t (jsOr ov q.visibility) }) docs).2 hall
      rw [hp] at this
      exact this
    have ha1 : ra = none := by
      have := (findOneAndUpdate_fst_none_iff (ackQuery tok t)
        (fun d => { d with deleted := some t }) docs).2 hall
      rw [ha] at this
      exact this
    have hp2 : dsp = docs := by
      have := findOneAndUpdate_snd_of_none (ackQuery tok t)
        (fun d => { d with visible := nowPlusSecs t (jsOr ov q.visibility) }) docs hall
      rw [hp] at this
      exact this
    have ha2 : dsa = docs := by
      have := findOneAndUpdate_snd_of_none (ackQuery tok t)
        (fun d => { d with deleted := some t }) docs hall
      rw [ha] at this
      exact this
    subst hp1 ha1 hp2 ha2
    exact ⟨by simp [Queue.ping, hp], by simp [Queue.ack, ha]⟩

/-- C7 counterexample: the claim asserts every rewrite of `visible_at` by
`get` or `ping` is strictly later than the message's prior claimable
instant.  On a message leased until `visible = 100`, a `ping` at `now = 1`
with the default visibility 30 rewrites `visible_at` from 100 down to 31 —
`ping` only guarantees `now + visibility`, which can precede the prior
`visible_at`. -/
theorem ping_moves_visible_backward :
    (Queue.ping ({ visibility := 30 } : Queue) 7 none 1
        [({ _id := 1, visible := 100, payload := 0, ack := some 7, tries := 1 } : Doc Nat)]).2
      = [{ _id := 1, visible := 31, payload := 0, ack := some 7, tries := 1 }] ∧
    (31 : Nat) < 100 := by
  constructor
  · rfl
  · decide

/-- C7 amended: `get` moves the claimed message's `visible_at` strictly
forward from its prior (claimable) value whenever the effective visibility
is positive, and `ping` sets `visible_at = now + visibility`, strictly
later than `now` — but possibly equal to or earlier than the message's
prior `visible_at` when the remaining lease exceeds the new window;
insertion may set `visible_at = now` for immediate visibility. -/
theorem visible_forward_amended [DecidableEq α] (q : Queue) (t : Nat)
    (tok : Nat) (ov : Option Nat) (docs : List (Doc α))
    (hv : 0 < jsOr ov q.visibility) :
    (∀ r, (claimOne (jsOr ov q.visibility) t tok docs).1 = some r →
      ∃ (i : ℕ) (m : Doc α), docs[i]? = some m ∧
        r = claimUpdate tok (nowPlusSecs t (jsOr ov q.visibility)) m ∧
        m.visible < r.visible) ∧
    (∀ m, (Queue.ping q tok ov t docs).1 = .ok m →
      ∃ j e, docs[j]? = some e ∧ ackQuery tok t e = true ∧
        (Queue.ping q tok ov t docs).2
          = docs.set j { e with visible := nowPlusSecs t (jsOr ov q.visibility) } ∧
        t < nowPlusSecs t (jsOr ov q.visibility)) := by
  constructor
  · intro r hr
    obtain ⟨i, m, hget, hmatch, _, hupd, _⟩ :=
      claimOne_some_spec (jsOr ov q.visibility) t tok docs r hr
    refine ⟨i, m, hget, hupd, ?_⟩
    have hvis : m.visible ≤ t := by
      simp only [getMatch, Bool.and_eq_true, beq_iff_eq, decide_eq_true_eq] at hmatch
      exact hmatch.2
    have hre : r.visible = t + jsOr ov q.visibility := by rw [hupd]; rfl
    omega
  · intro m hm
    obtain ⟨j, e, hget, hq', hm', hset⟩ := ping_ok_spec q tok ov t docs m hm
    have hlt : t < nowPlusSecs t (jsOr ov q.visibility) := by
      show t < t + jsOr ov q.visibility
      omega
    exact ⟨j, e, hget, hq', hset, hlt⟩

/-- C2: with a dead-letter target and retry ceiling configured, when the
just-claimed message's `tries` exceeds the ceiling, `get` redirects the
claim: the claimed view (id/ack/tries/payload) is appended as the payload
of a new dead-letter document via the dead queue's `add`, the original
message is finalized through the `ack` path (`deleted = now`), `get`
recurses for another message, and the caller never receives a view whose
`tries` exceeds the ceiling — in particular never the redirected one. -/
theorem get_dead_letter_redirect [DecidableEq α] (q : Queue) (dl : DeadLetter) (t : Nat)
    (ov : Option Nat) (st : GState α) (m : Doc α)
    (hdl : q.dead = some dl)
    (hfresh : ∀ d ∈ st.docs, ∀ tk, d.ack = some tk → tk ≠ st.nextTok)
    (hclaim : (claimOne (jsOr ov q.visibility) t st.nextTok st.docs).1 = some m)
    (hretry : dl.maxRetries < m.tries)
    (hvis : 0 < jsOr ov q.visibility) :
    (∃ dd ∈ ((Queue.get q t ov st).2).deadDocs,
      dd.payload = (⟨m._id, st.nextTok, m.payload, m.tries⟩ : View α)) ∧
    (∃ dd ∈ ((Queue.get q t ov st).2).docs, dd = { m with deleted := some t }) ∧
    (∀ v, (Queue.get q t ov st).1 = .ok (some v) →
      v.tries ≤ dl.maxRetries ∧ v ≠ (⟨m._id, st.nextTok, m.payload, m.tries⟩ : View α)) := by
  obtain ⟨j, m0, hj, hm0, _, hupd, hset⟩ :=
    claimOne_some_spec (jsOr ov q.visibility) t st.nextTok st.docs m hclaim
  rcases hc : claimOne (jsOr ov q.visibility) t st.nextTok st.docs with ⟨ro, docs1⟩
  have hro : ro = some m := by
    rw [hc] at hclaim
    exact hclaim
  subst hro
  have hdocs1 : docs1 = st.docs.set j m := by
    rw [← hset, hc]
  have hjlen : j < st.docs.length := (List.getElem?_eq_some_iff.1 hj).1
  have hj1 : docs1[j]? = some m := by
    rw [hdocs1]
    exact List.getElem?_set_eq_of_lt m hjlen
  have hmack : m.ack = some st.nextTok := by
    rw [hupd]
    rfl
  have hmvis : m.visible = t + jsOr ov q.visibility := by
    rw [hupd]
    rfl
  have hm0del : m0.deleted = none := by
    simp only [getMatch, Bool.and_eq_true, beq_iff_eq, decide_eq_true_eq] at hm0
    exact hm0.1
  have hmdel : m.deleted = none := by
    rw [hupd]
    exact hm0del
  have hackq : ackQuery st.nextTok t m = true := by
    simp [ackQuery, hmack, hmvis, hmdel]
    omega
  have huniq : ∀ k e, docs1[k]? = some e → ackQuery st.nextTok t e = true → k = j := by
    intro k e hk hq
    by_contra hkj
    rw [hdocs1, List.getElem?_set_ne (fun h => hkj h.symm)] at hk
    have hmem : e ∈ st.docs := by
      have h' := List.getElem?_eq_some_iff.1 hk
      exact List.mem_iff_getElem.2 ⟨k, h'.1, h'.2⟩
    have heack : e.ack = some st.nextTok := by
      simp only [ackQuery, Bool.and_eq_true, beq_iff_eq, decide_eq_true_eq] at hq
      exact hq.1.1
    exact hfresh e hmem st.nextTok heack rfl
  have hfoau := findOneAndUpdate_unique (ackQuery st.nextTok t)
    (fun x => { x with deleted := some t }) docs1 j m hj1 hackq huniq
  have hack : Queue.ack st.nextTok t docs1
      = (.ok m._id, docs1.set j { m with deleted := some t }) := by
    simp [Queue.ack, hfoau]
  have hgetEq : Queue.get q t ov st
      = getAux q t st.docs.length none
          { docs := docs1.set j { m with deleted := some t }
            deadDocs := st.deadDocs ++ [newDoc (jsOr none dl.delay) t st.nextId
              ⟨m._id, st.nextTok, m.payload, m.tries⟩]
            nextTok := st.nextTok + 1
            nextId := st.nextId + 1 } := by
    simp [Queue.get, getAux, hc, hdl, hretry, hack]
  refine ⟨?_, ?_, ?_⟩
  · have h0 : (st.deadDocs ++ [newDoc (jsOr none dl.delay) t st.nextId
        (⟨m._id, st.nextTok, m.payload, m.tries⟩ : View α)])[st.deadDocs.length]?
        = some (newDoc (jsOr none dl.delay) t st.nextId
          ⟨m._id, st.nextTok, m.payload, m.tries⟩) := by
      simp
    have h1 := getAux_dead_mono q t st.docs.length none
      { docs := docs1.set j { m with deleted := some t }
        deadDocs := st.deadDocs ++ [newDoc (jsOr none dl.delay) t st.nextId
          ⟨m._id, st.nextTok, m.payload, m.tries⟩]
        nextTok := st.nextTok + 1
        nextId := st.nextId + 1 } st.deadDocs.length
      (newDoc (jsOr none dl.delay) t st.nextId ⟨m._id, st.nextTok, m.payload, m.tries⟩)
      h0
    rw [hgetEq]
    refine ⟨newDoc (jsOr none dl.delay) t st.nextId ⟨m._id, st.nextTok, m.payload, m.tries⟩,
      ?_, rfl⟩
    have h' := List.getElem?_eq_some_iff.1 h1
    exact List.mem_iff_getElem.2 ⟨st.deadDocs.length, h'.1, h'.2⟩
  · have h0 : (docs1.set j { m with deleted := some t })[j]? = some { m with deleted := some t } := by
      refine List.getElem?_set_eq_of_lt _ ?_
      rw [hdocs1]
      simpa using hjlen
    have h1 := getAux_preserves_deleted q t st.docs.length none
      { docs := docs1.set j { m with deleted := some t }
        deadDocs := st.deadDocs ++ [newDoc (jsOr none dl.delay) t st.nextId
          ⟨m._id, st.nextTok, m.payload, m.tries⟩]
        nextTok := st.nextTok + 1
        nextId := st.nextId + 1 } j { m with deleted := some t } h0 (by simp)
    rw [hgetEq]
    refine ⟨{ m with deleted := some t }, ?_, rfl⟩
    have h' := List.getElem?_eq_some_iff.1 h1
    exact List.mem_iff_getElem.2 ⟨j, h'.1, h'.2⟩
  · intro v hv
    have h1 : v.tries ≤ dl.maxRetries := by
      refine getAux_tries_le q t dl hdl (st.docs.length + 1) ov st v ?_
      exact hv
    refine ⟨h1, ?_⟩
    intro heq
    rw [heq] at h1
    have h2 : m.tries ≤ dl.maxRetries := h1
    omega

/-- C9: every message created by `add` (single or batch) or `addIfMissing`
starts pending with retry counter 0 (and no ack token, not deleted);
`ping`, `ack` and `cancel` never change any `tries`; and on a queue whose
messages all have `tries = 0`, a successful claim returns a message view
with `tries = 1`. -/
theorem fresh_message_tries_zero [DecidableEq α] (q : Queue) (pl : α) (ps : List α)
    (od : Option Nat) (t : Nat) (newId baseId i tok : Nat)
    (docs : List (Doc α)) (st : GState α)
    (hdead : q.dead = none) (hzero : ∀ d ∈ st.docs, d.tries = 0) :
    (∀ e ∈ Queue.add q pl od t newId docs,
      e ∈ docs ∨ (e.tries = 0 ∧ e.ack = none ∧ e.deleted = none)) ∧
    (∀ l, Queue.addBatch q ps od t baseId docs = .ok l →
      ∀ e ∈ l, e ∈ docs ∨ (e.tries = 0 ∧ e.ack = none ∧ e.deleted = none)) ∧
    (∀ e ∈ (Queue.addIfMissing q i pl od t docs).2,
      e ∈ docs ∨ (e.tries = 0 ∧ e.ack = none ∧ e.deleted = none)) ∧
    ((Queue.ping q tok od t docs).2.map Doc.tries = docs.map Doc.tries) ∧
    ((Queue.ack tok t docs).2.map Doc.tries = docs.map Doc.tries) ∧
    ((Queue.cancel i t docs).2.map Doc.tries = docs.map Doc.tries) ∧
    (∀ v, (Queue.get q t od st).1 = .ok (some v) → v.tries = 1) := by
  refine ⟨?_, ?_, ?_, ?_, ?_, ?_, ?_⟩
  · intro e he
    rcases List.mem_append.1 he with h | h
    · exact Or.inl h
    · simp only [List.mem_singleton] at h
      subst h
      exact Or.inr ⟨rfl, rfl, rfl⟩
  · intro l hl e he
    simp only [Queue.addBatch] at hl
    split at hl
    · exact absurd hl (by simp)
    · simp only [Except.ok.injEq] at hl
      subst hl
      rcases List.mem_append.1 he with h | h
      · exact Or.inl h
      · obtain ⟨ip, _, rfl⟩ := List.mem_map.1 h
        exact Or.inr ⟨rfl, rfl, rfl⟩
  · intro e he
    simp only [Queue.addIfMissing] at he
    split at he
    · exact Or.inl he
    · simp only at he
      rcases List.mem_append.1 he with h | h
      · exact Or.inl h
      · simp only [List.mem_singleton] at h
        subst h
        exact Or.inr ⟨rfl, rfl, rfl⟩
  · rcases h : findOneAndUpdate (ackQuery tok t)
        (fun d => { d with visible := nowPlusSecs t (jsOr od q.visibility) }) docs
      with ⟨r, ds⟩
    have := findOneAndUpdate_map_eq (ackQuery tok t)
      (fun d => { d with visible := nowPlusSecs t (jsOr od q.visibility) })
      Doc.tries (fun d => rfl) docs
    rw [h] at this
    rcases r with _ | m <;> simp [Queue.ping, h, this]
  · rcases h : findOneAndUpdate (ackQuery tok t)
        (fun d => { d with deleted := some t }) docs with ⟨r, ds⟩
    have := findOneAndUpdate_map_eq (ackQuery tok t)
      (fun d => { d with deleted := some t }) Doc.tries (fun d => rfl) docs
    rw [h] at this
    rcases r with _ | m <;> simp [Queue.ack, h, this]
  · rcases h : findOneAndUpdate (cancelQuery i t)
        (fun d => { d with deleted := some t }) docs with ⟨r, ds⟩
    have := findOneAndUpdate_map_eq (cancelQuery i t)
      (fun d => { d with deleted := some t }) Doc.tries (fun d => rfl) docs
    rw [h] at this
    rcases r with _ | m <;> simp [Queue.cancel, h, this]
  · intro v hv
    rcases hc : claimOne (jsOr od q.visibility) t st.nextTok st.docs with ⟨r?, docs1⟩
    rcases r? with _ | r
    · simp [Queue.get, getAux, hc] at hv
    · simp only [Queue.get, getAux, hc, hdead] at hv
      obtain ⟨i, m, hget, _, _, hr, _⟩ :=
        claimOne_some_spec (jsOr od q.visibility) t st.nextTok st.docs r
          (by rw [hc])
      have hm : m ∈ st.docs := by
        have := List.getElem?_eq_some_iff.1 hget
        exact List.mem_iff_getElem.2 ⟨i, this.1, this.2⟩
      have : v.tries = r.tries := by
        rcases hv with ⟨rfl⟩
        rfl
      rw [this, hr]
      simp [claimUpdate, hzero m hm]

/-! ### Witnesses -/

/-- Witness for `get_claims_minimal_or_none` (C1): a queue holding one
visible message yields a claimed view. -/
theorem get_claims_minimal_or_none_witness :
    ∃ w, (Queue.get { visibility := 30, delay := 0, dead := none } 10 none
      { docs := [{ _id := 1, visible := 0, payload := (0 : Nat) }]
        deadDocs := [], nextTok := 5, nextId := 9 }).1 = .ok (some w) :=
  (get_claims_minimal_or_none { visibility := 30, delay := 0, dead := none } 10 none
      { docs := [{ _id := 1, visible := 0, payload := (0 : Nat) }]
        deadDocs := [], nextTok := 5, nextId := 9 } rfl).2.1
    ⟨{ _id := 1, visible := 0, payload := (0 : Nat) }, by simp, by decide⟩

/-- Witness for `get_dead_letter_redirect` (C2): an over-retried message is
copied, as a view, into the dead-letter collection. -/
theorem get_dead_letter_redirect_witness :
    ∃ dd ∈ ((Queue.get { visibility := 30, delay := 0, dead := some ⟨0, 2⟩ } 0 none
      { docs := [{ _id := 1, visible := 0, payload := (10 : Nat), tries := 2 }]
        deadDocs := [], nextTok := 5, nextId := 9 }).2).deadDocs,
      dd.payload = (⟨1, 5, 10, 3⟩ : View Nat) :=
  (get_dead_letter_redirect { visibility := 30, delay := 0, dead := some ⟨0, 2⟩ } ⟨0, 2⟩
      0 none
      { docs := [{ _id := 1, visible := 0, payload := (10 : Nat), tries := 2 }]
        deadDocs := [], nextTok := 5, nextId := 9 }
      { _id := 1, visible := 30, payload := 10, ack := some 5, tries := 3 }
      rfl
      (by
        intro d hd tk hk
        rw [List.mem_singleton] at hd
        subst hd
        simp at hk)
      (by decide) (by decide) (by decide)).1

/-- Witness for `ping_ack_unidentified_semantics` (C3): on an empty
collection both operations fail with the "Unidentified ack" error and
leave the collection unchanged. -/
theorem ping_ack_unidentified_semantics_witness :
    Queue.ping { visibility := 30, delay := 0, dead := none } 5 none 3
        ([] : List (Doc Nat))
      = (.error ("Queue.ping(): Unidentified ack  : " ++ toString 5), []) ∧
    Queue.ack 5 3 ([] : List (Doc Nat))
      = (.error ("Queue.ack(): Unidentified ack : " ++ toString 5), []) :=
  (ping_ack_unidentified_semantics { visibility := 30, delay := 0, dead := none }
    5 none 3 ([] : List (Doc Nat))).2.2.2.2 (by intro d hd; cases hd)

/-- Witness for `addIfMissing_idempotent` (C4): inserting into an empty
collection returns the chosen id. -/
theorem addIfMissing_idempotent_witness :
    (Queue.addIfMissing { visibility := 30, delay := 0, dead := none } 1 (7 : Nat)
      none 0 []).1 = some 1 :=
  (addIfMissing_idempotent { visibility := 30, delay := 0, dead := none } 1 7 8
    none none 0 0 [] (by intro d hd; cases hd)).1

/-- Witness for `deleted_messages_untouched` (C5): `ack` leaves a finalized
document in place. -/
theorem deleted_messages_untouched_witness :
    ((Queue.ack 5 3
        [({ _id := 1, visible := 0, payload := 0, deleted := some 2 } : Doc Nat)]).2)[0]?
      = some { _id := 1, visible := 0, payload := 0, deleted := some 2 } :=
  (deleted_messages_untouched { visibility := 30, delay := 0, dead := none } 3 0
    none none 4 6 5
    [({ _id := 1, visible := 0, payload := 0, deleted := some 2 } : Doc Nat)]
    { docs := [], deadDocs := [], nextTok := 0, nextId := 0 } 0
    { _id := 1, visible := 0, payload := 0, deleted := some 2 }
    (by decide) (by decide) (by decide)).2.2.2.1

/-- Witness for `counts_partition` (C6): one fresh, immediately visible
message gives `size = 1`. -/
theorem counts_partition_witness :
    size 0 (Queue.add { visibility := 30, delay := 0, dead := none } (0 : Nat)
      none 0 1 []) = 1 :=
  (counts_partition 0 [] { visibility := 30, delay := 0, dead := none } 0 1 rfl).2.1

/-- Witness for `visible_forward_amended` (C7): a successful ping rewrites
`visible` to `now + visibility`, later than `now`. -/
theorem visible_forward_amended_witness :
    ∃ (j : ℕ) (e : Doc Nat),
      ([({ _id := 1, visible := 10, payload := 0, ack := some 7 } : Doc Nat)])[j]?
          = some e ∧
      ackQuery 7 3 e = true ∧
      (Queue.ping { visibility := 30, delay := 0, dead := none } 7 none 3
          [({ _id := 1, visible := 10, payload := 0, ack := some 7 } : Doc Nat)]).2
        = [({ _id := 1, visible := 10, payload := 0, ack := some 7 } : Doc Nat)].set j
            { e with visible := nowPlusSecs 3 (jsOr none 30) } ∧
      3 < nowPlusSecs 3 (jsOr none 30) :=
  (visible_forward_amended { visibility := 30, delay := 0, dead := none } 3 7 none
    [({ _id := 1, visible := 10, payload := 0, ack := some 7 } : Doc Nat)]
    (by decide)).2 1 rfl

/-- Witness for `nonzero_call_option_overrides` (C8 amended): a nonzero
call-level delay of 5 on a queue configured with delay 3 inserts a message
visible at `now + 5`. -/
theorem nonzero_call_option_overrides_witness :
    Queue.add { visibility := 30, delay := 3, dead := none } (0 : Nat) (some 5) 0 1 []
      = [{ _id := 1, visible := 0 + 5, payload := 0 }] :=
  (nonzero_call_option_overrides { visibility := 30, delay := 3, dead := none }
    (0 : Nat) 5 7 1 1 1 0 []
    { docs := [], deadDocs := [], nextTok := 0, nextId := 0 }
    (by decide) (by decide)).2.1

/-- Witness for `fresh_message_tries_zero` (C9): `ping` preserves every
retry counter. -/
theorem fresh_message_tries_zero_witness :
    ((Queue.ping { visibility := 30, delay := 0, dead := none } 5 none 0
        [({ _id := 1, visible := 0, payload := 2, tries := 4 } : Doc Nat)]).2).map Doc.tries
      = [({ _id := 1, visible := 0, payload := 2, tries := 4 } : Doc Nat)].map Doc.tries :=
  (fresh_message_tries_zero { visibility := 30, delay := 0, dead := none } 0 [] none 0
    1 1 1 5 [({ _id := 1, visible := 0, payload := 2, tries := 4 } : Doc Nat)]
    { docs := [], deadDocs := [], nextTok := 0, nextId := 0 }
    rfl (by intro d hd; cases hd)).2.2.2.1

/-- Witness for `dead_letter_recursion_drops_options` (C10): with caller
visibility 7 and queue visibility 30, the returned message is leased with
30. -/
theorem dead_letter_recursion_drops_options_witness :
    (Queue.get { visibility := 30, delay := 0, dead := some ⟨0, 2⟩ } 0 (some 7)
        { docs := [{ _id := 1, visible := 0, payload := 10, tries := 2 },
                   { _id := 2, visible := 0, payload := 20 }]
          deadDocs := ([] : List (Doc (View Nat)))
          nextTok := 5
          nextId := 100 }).1 = .ok (some ⟨2, 6, 20, 1⟩) :=
  (dead_letter_recursion_drops_options 7 30 (by decide)).1

end MongoQueue
